import Mathlib

/-!
Shallow embedding of the block-list memory allocator of
`lib/memory/src/{heap.h, heap.c, allocator.c, control.c, stats.c}`
(final revisions of each function; the repository keeps several historical
revisions of some files, and the superseded variants that a claim depends on
are embedded separately and named accordingly).

The heap is represented as the list of block headers in `next`-traversal
order starting at `heap_base`; the doubly-linked-list invariants of the data
model make `prev` the list predecessor, so the list carries the whole
structure.  A C block pointer is represented by its position in that list,
given as a segment (blocks before it, the block itself, blocks after it).
Addresses are the numeric values of the header pointers (`NULL` = 0), and
each `mmap` outcome is supplied as an explicit `Option Nat` argument where
`none` models `MAP_FAILED`.
-/

/-- heap.h: `#define ALIGNMENT 8`. -/
def ALIGNMENT : Nat := 8

/-- The modulus of `size_t` arithmetic (LP64). -/
def SIZE_T_MOD : Nat := 2 ^ 64

/-- heap.h (final revision):
`#define ALIGN(size) (((size) + (ALIGNMENT - 1)) & ~(ALIGNMENT - 1))`.
The sum is `size_t` arithmetic, hence taken modulo `2 ^ 64`; masking with
`~(ALIGNMENT - 1)` clears the low three bits, which on a natural number
below the modulus is subtraction of its remainder modulo 8. -/
def ALIGN (n : Nat) : Nat :=
  (n + (ALIGNMENT - 1)) % SIZE_T_MOD - (n + (ALIGNMENT - 1)) % SIZE_T_MOD % ALIGNMENT

/-- heap.h: `#define BLOCK_META_SIZE ALIGN(sizeof(struct s_block))`.
The final header is `{size_t size; struct s_block *next; struct s_block
*prev; bool is_free;}`, whose LP64 size is 32 (8 + 8 + 8 + 1 padded to the
8-byte struct alignment), and `ALIGN 32 = 32`. -/
def BLOCK_META_SIZE : Nat := ALIGN 32

/-- One block header of `struct s_block` (final revision).  `next`/`prev`
are represented by the position of the block in the heap list; `addr` is the
numeric address of the header itself. -/
structure Block where
  addr : Nat
  size : Nat
  is_free : Bool
deriving DecidableEq, Repr

/-- The heap: all blocks reachable from `heap_base` in `next`-order. -/
abbrev Heap := List Block

/-- A C block pointer, as a position in the heap list: the blocks before
it, the block itself, and the blocks after it. -/
abbrev Seg := List Block × Block × List Block

/-- The physical-contiguity predicate of the data model:
`contiguous(a, b) = address(a) + BLOCK_META_SIZE + a.size == address(b)`. -/
def contiguous (a b : Block) : Prop :=
  a.addr + BLOCK_META_SIZE + a.size = b.addr

instance (a b : Block) : Decidable (contiguous a b) :=
  inferInstanceAs (Decidable (a.addr + BLOCK_META_SIZE + a.size = b.addr))

/-- memory_control.h: `typedef enum { FIRST_FIT, BEST_FIT, WORST_FIT }
allocation_policy_t;`. -/
inductive allocation_policy_t where
  | FIRST_FIT
  | BEST_FIT
  | WORST_FIT
deriving DecidableEq, Repr

/-- The candidate condition of the `find_free_block` loop:
`current->is_free && current->size >= size`. -/
def fits (r : Nat) (b : Block) : Prop := b.is_free = true ∧ r ≤ b.size

instance (r : Nat) (b : Block) : Decidable (fits r b) :=
  inferInstanceAs (Decidable (b.is_free = true ∧ r ≤ b.size))

/-- The `while (current)` loop of `find_free_block` (heap.c, final
revision).  `done` is the already-visited part of the list, so the full
list is `done ++ rest`; `best`/`minDiff` and `worst`/`maxSize` are the
loop's `best_fit_block`/`min_diff` and `worst_fit_block`/`max_size`
accumulators, with `min_diff` starting at `(size_t)-1 = 2^64 - 1` and
`max_size` at 0.  Candidates are stored as segments of the full list. -/
def findAux (pol : allocation_policy_t) (r : Nat) :
    List Block → List Block → Option Seg → Nat → Option Seg → Nat → Option Seg
  | _, [], best, _, worst, _ =>
    match pol with
    | .FIRST_FIT => none
    | .BEST_FIT => best
    | .WORST_FIT => worst
  | done, b :: rest, best, minDiff, worst, maxSize =>
    if fits r b then
      match pol with
      | .FIRST_FIT => some (done, b, rest)
      | .BEST_FIT =>
        if b.size = r then some (done, b, rest)
        else if b.size - r < minDiff then
          findAux pol r (done ++ [b]) rest (some (done, b, rest)) (b.size - r) worst maxSize
        else
          findAux pol r (done ++ [b]) rest best minDiff worst maxSize
      | .WORST_FIT =>
        if maxSize < b.size then
          findAux pol r (done ++ [b]) rest best minDiff (some (done, b, rest)) b.size
        else
          findAux pol r (done ++ [b]) rest best minDiff worst maxSize
    else findAux pol r (done ++ [b]) rest best minDiff worst maxSize

/-- heap.c (final revision): `find_free_block(&last, size)`.  The `last`
out-parameter always ends at the list tail when the loop completes, which
is where `extend_heap` splices a new block; the list representation makes
that an append, so `last` needs no separate modelling. -/
def find_free_block (pol : allocation_policy_t) (h : Heap) (r : Nat) : Option Seg :=
  findAux pol r [] h none (SIZE_T_MOD - 1) none 0

/-- heap.c (final revision): `extend_heap(last, size)`.  `mres` is the
address returned by `mmap` for this call (`none` = `MAP_FAILED`).  The new
block is initialised `{size, is_free = false, next = NULL, prev = last}`
and spliced after the tail. -/
def extend_heap (h : Heap) (mres : Option Nat) (r : Nat) : Option (Nat × Heap) :=
  match mres with
  | none => none
  | some a => some (a, h ++ [{ addr := a, size := r, is_free := false }])

/-- heap.c (final revision): `split_block(block, size)`.  Splits only when
`block->size >= size + BLOCK_META_SIZE + ALIGNMENT`; the new free fragment
is placed at `(char*)block + BLOCK_META_SIZE + size` with the leftover
payload, and the original block shrinks to `size`. -/
def split_block (b : Block) (r : Nat) : List Block :=
  if r + BLOCK_META_SIZE + ALIGNMENT ≤ b.size then
    [{ b with size := r },
     { addr := b.addr + BLOCK_META_SIZE + r,
       size := b.size - r - BLOCK_META_SIZE,
       is_free := true }]
  else [b]

/-- heap.c / allocator.c (final revision): `coalesce_blocks(block)`.
Backward merge first (`block->prev` free and physically contiguous with
`block`), then forward merge (`block->next` free and physically contiguous
with the current block).  Merging keeps the absorbing block's header and
adds `BLOCK_META_SIZE + size` of the absorbed one. -/
def coalesce_blocks (pre : List Block) (b : Block) (post : List Block) : Seg :=
  let s1 : List Block × Block :=
    match pre.getLast? with
    | some a =>
      if a.is_free = true ∧ a.addr + BLOCK_META_SIZE + a.size = b.addr then
        (pre.dropLast, { a with size := a.size + BLOCK_META_SIZE + b.size })
      else (pre, b)
    | none => (pre, b)
  match post with
  | c :: rest =>
    if c.is_free = true ∧ s1.2.addr + BLOCK_META_SIZE + s1.2.size = c.addr then
      (s1.1, { s1.2 with size := s1.2.size + BLOCK_META_SIZE + c.size }, rest)
    else (s1.1, s1.2, post)
  | [] => (s1.1, s1.2, [])

/-- allocator.c (final revision): `is_valid_address(p)` — true iff `p` is
nonnull, the heap is nonempty, and some reachable block is in use with
`(char*)current + BLOCK_META_SIZE == p`. -/
def is_valid_address (h : Heap) (p : Nat) : Bool :=
  if p = 0 then false
  else h.any fun b => !b.is_free && (b.addr + BLOCK_META_SIZE == p)

/-- Locates the reachable in-use block whose payload address is `p`, as a
segment.  This is the block that `get_block_from_ptr(p) = p -
BLOCK_META_SIZE` designates once `is_valid_address(p)` has succeeded. -/
def findBlock : List Block → Nat → Option Seg
  | [], _ => none
  | b :: t, p =>
    if b.is_free = false ∧ b.addr + BLOCK_META_SIZE = p then some ([], b, t)
    else (findBlock t p).map fun s => (b :: s.1, s.2.1, s.2.2)

/-- Marking `block->is_free = false` on the result of `split_block` (the
original block is the first element of the split). -/
def mark_used_head : List Block → List Block
  | [] => []
  | b :: t => { b with is_free := false } :: t

/-- allocator.c (final revision): `custom_malloc(size)`.  `mres` is the
address `mmap` would hand to `extend_heap` if extension is reached. -/
def custom_malloc (pol : allocation_policy_t) (mres : Option Nat) (h : Heap) (n : Nat) :
    Option Nat × Heap :=
  if n = 0 then (none, h)
  else
    let aligned := ALIGN n
    match h with
    | [] =>
      match extend_heap [] mres aligned with
      | none => (none, h)
      | some (a, h') => (some (a + BLOCK_META_SIZE), h')
    | _ :: _ =>
      match find_free_block pol h aligned with
      | some (pre, b, post) =>
        (some (b.addr + BLOCK_META_SIZE),
         pre ++ mark_used_head (split_block b aligned) ++ post)
      | none =>
        match extend_heap h mres aligned with
        | none => (none, h)
        | some (a, h') => (some (a + BLOCK_META_SIZE), h')

/-- allocator.c (final revision): `custom_free(p)`.  Null is a no-op;
an invalid pointer only logs; a valid pointer's block is marked free and
coalesced with its neighbours. -/
def custom_free (h : Heap) (p : Nat) : Heap :=
  if p = 0 then h
  else
    match findBlock h p with
    | none => h
    | some (pre, b, post) =>
      let s := coalesce_blocks pre { b with is_free := true } post
      s.1 ++ s.2.1 :: s.2.2

/-- The guard of realloc's in-place expansion branch:
`block->next && block->next->is_free &&
 (block->size + BLOCK_META_SIZE + block->next->size) >= aligned_size`.
Note that it does NOT test physical contiguity. -/
def can_grow (b : Block) (post : List Block) (aligned : Nat) : Prop :=
  match post with
  | c :: _ => c.is_free = true ∧ aligned ≤ b.size + BLOCK_META_SIZE + c.size
  | [] => False

instance (b : Block) (post : List Block) (aligned : Nat) :
    Decidable (can_grow b post aligned) :=
  match post with
  | [] => isFalse fun hf => hf
  | c :: _ =>
    inferInstanceAs (Decidable (c.is_free = true ∧ aligned ≤ b.size + BLOCK_META_SIZE + c.size))

/-- allocator.c / control.c (final revision): `custom_realloc(p, size)`.
Case order follows the source: null pointer, zero size, invalid pointer,
in-place shrink, in-place expansion (coalesce forward, then split), move
(`custom_malloc(aligned_size)`, copy, free original; the copy is a payload
operation and leaves the header list unchanged).  In the expansion branch
the source calls `coalesce_blocks(block)` and then `split_block(block,
aligned)` on the same pointer; when the backward branch of coalesce fires
there the source writes through a header that is no longer list-reachable,
which has no counterpart in the list representation, so theorems about this
branch carry the hypothesis that the list predecessor is not a free
physically-contiguous block. -/
def custom_realloc (pol : allocation_policy_t) (mres : Option Nat) (h : Heap)
    (p n : Nat) : Option Nat × Heap :=
  if p = 0 then custom_malloc pol mres h n
  else if n = 0 then (none, custom_free h p)
  else
    match findBlock h p with
    | none => (none, h)
    | some (pre, b, post) =>
      let aligned := ALIGN n
      if aligned ≤ b.size then
        (some p, pre ++ split_block b aligned ++ post)
      else if can_grow b post aligned then
        let s := coalesce_blocks pre b post
        (some p, s.1 ++ split_block s.2.1 aligned ++ s.2.2)
      else
        match custom_malloc pol mres h aligned with
        | (none, _) => (none, h)
        | (some np, h') => (some np, custom_free h' p)

/-- stats.c: out-parameters of `memory_usage_stats`. -/
structure UsageStats where
  total_allocated : Nat
  total_free : Nat
  allocated_blocks : Nat
  free_blocks : Nat
deriving DecidableEq, Repr

/-- stats.c: `memory_usage_stats` — one traversal classifying each block. -/
def memory_usage_stats (h : Heap) : UsageStats :=
  h.foldl
    (fun s b =>
      if b.is_free then
        { s with total_free := s.total_free + b.size, free_blocks := s.free_blocks + 1 }
      else
        { s with total_allocated := s.total_allocated + b.size,
                 allocated_blocks := s.allocated_blocks + 1 })
    ⟨0, 0, 0, 0⟩

/-- stats.c, `get_fragmentation_rate`: the `total_free_mem` accumulator. -/
def total_free_mem (h : Heap) : Nat :=
  h.foldl (fun acc b => if b.is_free then acc + b.size else acc) 0

/-- stats.c, `get_fragmentation_rate`: the `largest_free_block`
accumulator (`if (current->size > largest_free_block)` inside the
`is_free` branch). -/
def largest_free_block (h : Heap) : Nat :=
  h.foldl (fun acc b => if b.is_free then (if acc < b.size then b.size else acc) else acc) 0

/-- stats.c: `get_fragmentation_rate()` — `0.0` when there is no free
memory, else `1.0 - largest/total`.  The C computes in `double`; the
embedding uses exact rational arithmetic, which agrees with IEEE double on
the claimed facts (the endpoints 0 and 1 and the quotient `x/x = 1` are
exact in both). -/
def get_fragmentation_rate (h : Heap) : ℚ :=
  if total_free_mem h = 0 then 0
  else 1 - (largest_free_block h : ℚ) / (total_free_mem h : ℚ)

/-- control.c, `check_heap_consistency` error 2: the scan that reports two
list-adjacent blocks that are both free AND physically contiguous
(`current->is_free && current->next && current->next->is_free` together
with the physical-contiguity test). -/
def has_coalesce_violation : Heap → Bool
  | a :: b :: t =>
    (a.is_free && b.is_free && (a.addr + BLOCK_META_SIZE + a.size == b.addr)) ||
      has_coalesce_violation (b :: t)
  | _ => false

/-- The coalesce invariant: `check_heap_consistency` reports no
adjacent-free-contiguous pair. -/
def NoCoalesceViolation (h : Heap) : Prop := has_coalesce_violation h = false

instance (h : Heap) : Decidable (NoCoalesceViolation h) :=
  inferInstanceAs (Decidable (has_coalesce_violation h = false))

/-- C5/C6 of control.c (recursion-guard revision): the `__thread bool
is_inside_allocator` flag's initial value. -/
def is_inside_allocator_initial : Bool := false

/-- control.c (recursion-guard revision): `custom_malloc` with the
per-thread reentrancy flag.  If the flag is set on entry the call is
delegated to the fallback allocator (`get_original_malloc`, whose result is
supplied as `fallback`) and the custom heap is untouched; otherwise the
body is the final `custom_malloc` body (identical control flow, with the
flag set on entry and cleared on every return path).  The result carries
the flag value at return. -/
def custom_malloc_guarded (pol : allocation_policy_t) (flag : Bool)
    (fallback mres : Option Nat) (h : Heap) (n : Nat) :
    Option Nat × Heap × Bool :=
  if flag then (fallback, h, flag)
  else
    let r := custom_malloc pol mres h n
    (r.1, r.2, false)

/-- control.c (recursion-guard revision): `custom_free` with the
per-thread reentrancy flag: if the flag is set on entry the call returns
immediately without touching the heap; otherwise the body is the final
`custom_free` body and the flag is cleared on every return path. -/
def custom_free_guarded (flag : Bool) (h : Heap) (p : Nat) : Heap × Bool :=
  if flag then (h, flag) else (custom_free h p, false)

/-- Byte store for payload contents (address → byte). -/
abbrev Store := Nat → Nat

/-- Action of `memset(p, v, len)` on the byte store. -/
def memsetStore (mem : Store) (p v len : Nat) : Store :=
  fun a => if p ≤ a ∧ a < p + len then v else mem a

/-- control.c (recursion-guard revision): `custom_calloc(number, size)`.
`total_size = number * size` in `size_t` arithmetic (wraps modulo 2^64);
the overflow test is `number != 0 && total_size / number != size`; on a
successful `custom_malloc(total_size)` the payload is zeroed with
`memset(p, 0, total_size)`. -/
def custom_calloc (pol : allocation_policy_t) (mres : Option Nat) (h : Heap)
    (mem : Store) (number size : Nat) : Option Nat × Heap × Store :=
  let total := (number * size) % SIZE_T_MOD
  if number ≠ 0 ∧ total / number ≠ size then (none, h, mem)
  else
    match custom_malloc pol mres h total with
    | (some p, h') => (some p, h', memsetStore mem p 0 total)
    | (none, h') => (none, h', mem)

/-- The block header of the superseded heap.h revision, which carried a
stored verification pointer `void *data_ptr` (and a flexible trailing
array).  Only the fields the validity check reads are modelled. -/
structure BlockV where
  addr : Nat
  size : Nat
  is_free : Bool
  data_ptr : Nat
deriving DecidableEq, Repr

/-- heap.c (superseded revision): `is_valid_address` comparing the stored
verification field: `!current->is_free && current->data_ptr == p`. -/
def is_valid_address_stored (h : List BlockV) (p : Nat) : Bool :=
  if p = 0 then false
  else h.any fun b => !b.is_free && (b.data_ptr == p)

/-- allocator.c (final revision) `is_valid_address` transcribed onto the
`data_ptr`-carrying header: `!current->is_free &&
(char*)current + BLOCK_META_SIZE == p`. -/
def is_valid_address_computed (h : List BlockV) (p : Nat) : Bool :=
  if p = 0 then false
  else h.any fun b => !b.is_free && (b.addr + BLOCK_META_SIZE == p)


/-! ### Basic arithmetic facts about the alignment macro -/

lemma ALIGN_mod_eight (n : Nat) : ALIGN n % 8 = 0 := by
  unfold ALIGN ALIGNMENT SIZE_T_MOD
  omega

lemma ALIGN_eq_of_small (n : Nat) (hn : n + 7 < 2 ^ 64) :
    ALIGN n = (n + 7) - (n + 7) % 8 := by
  unfold ALIGN ALIGNMENT SIZE_T_MOD
  omega

lemma le_ALIGN (n : Nat) (hn : n + 7 < 2 ^ 64) : n ≤ ALIGN n := by
  unfold ALIGN ALIGNMENT SIZE_T_MOD
  omega

/-! ### Locating a block from a user pointer -/

lemma findBlock_eq_none (h : Heap) (p : Nat) :
    findBlock h p = none ↔
      ∀ b ∈ h, ¬(b.is_free = false ∧ b.addr + BLOCK_META_SIZE = p) := by
  induction h with
  | nil => simp [findBlock]
  | cons x t ih =>
    simp only [findBlock]
    split
    · rename_i hcond
      exact iff_of_false (by simp) fun hall => hall x (List.mem_cons_self x t) hcond
    · rw [Option.map_eq_none']
      simp only [List.mem_cons]
      constructor
      · intro hn b hb
        rcases hb with rfl | hb
        · assumption
        · exact (ih.1 hn) b hb
      · intro hall
        exact ih.2 fun b hb => hall b (Or.inr hb)

lemma findBlock_eq_some (h : Heap) (p : Nat) (pre : List Block) (b : Block)
    (post : List Block) :
    findBlock h p = some (pre, b, post) →
      h = pre ++ b :: post ∧ b.is_free = false ∧ b.addr + BLOCK_META_SIZE = p := by
  induction h generalizing pre with
  | nil => simp [findBlock]
  | cons x t ih =>
    simp only [findBlock]
    split
    · intro e
      obtain ⟨rfl, rfl, rfl⟩ : pre = [] ∧ x = b ∧ t = post := by
        injection e with e'; injection e' with e1 e2; injection e2 with e3 e4
        exact ⟨e1.symm, e3, e4⟩
      exact ⟨rfl, by assumption⟩
    · intro e
      rw [Option.map_eq_some'] at e
      obtain ⟨⟨q, c, s⟩, hq, he⟩ := e
      obtain ⟨rfl, rfl, rfl⟩ : x :: q = pre ∧ c = b ∧ s = post := by
        injection he with e1 e2; injection e2 with e3 e4
        exact ⟨e1, e3, e4⟩
      obtain ⟨hdec, hfree, haddr⟩ := ih q hq
      exact ⟨by rw [hdec]; rfl, hfree, haddr⟩

lemma is_valid_address_true_iff (h : Heap) (p : Nat) :
    is_valid_address h p = true ↔
      p ≠ 0 ∧ ∃ b ∈ h, b.is_free = false ∧ b.addr + BLOCK_META_SIZE = p := by
  unfold is_valid_address
  split
  · simp [*]
  · simp only [List.any_eq_true, Bool.and_eq_true, Bool.not_eq_true', beq_iff_eq]
    constructor
    · rintro ⟨b, hb, hf, ha⟩
      exact ⟨by assumption, b, hb, hf, ha⟩
    · rintro ⟨-, b, hb, hf, ha⟩
      exact ⟨b, hb, hf, ha⟩

/-- C7: `free(null)` is a no-op; `free` on an invalid pointer (one that is
not the payload address of a reachable in-use block) leaves every block of
the heap unchanged, and `realloc` on such an invalid non-null pointer with
a positive size returns null and leaves the heap unchanged. -/
theorem invalid_pointer_spec (pol : allocation_policy_t) (mres : Option Nat)
    (h : Heap) (p n : Nat) (hp : p ≠ 0) (hn : n ≠ 0)
    (hv : ∀ b ∈ h, ¬(b.is_free = false ∧ b.addr + BLOCK_META_SIZE = p)) :
    is_valid_address h p = false ∧
    custom_free h 0 = h ∧
    custom_free h p = h ∧
    custom_realloc pol mres h p n = (none, h) := by
  have hfb : findBlock h p = none := (findBlock_eq_none h p).mpr hv
  refine ⟨?_, ?_, ?_, ?_⟩
  · rw [Bool.eq_false_iff]
    intro htrue
    obtain ⟨-, b, hb, hprop⟩ := (is_valid_address_true_iff h p).mp htrue
    exact hv b hb hprop
  · simp [custom_free]
  · simp [custom_free, hp, hfb]
  · simp [custom_realloc, hp, hn, hfb]

/-- Witness for `invalid_pointer_spec` at a concrete heap and pointer. -/
theorem invalid_pointer_spec_witness :
    is_valid_address [⟨0, 8, false⟩] 999 = false ∧
    custom_free [⟨0, 8, false⟩] 0 = [⟨0, 8, false⟩] ∧
    custom_free [⟨0, 8, false⟩] 999 = [⟨0, 8, false⟩] ∧
    custom_realloc .FIRST_FIT none [⟨0, 8, false⟩] 999 8 = (none, [⟨0, 8, false⟩]) :=
  invalid_pointer_spec .FIRST_FIT none [⟨0, 8, false⟩] 999 8
    (by decide) (by decide) (by decide)

/-- C8: the per-thread reentrancy flag starts false; when it is set on
entry, `alloc` delegates to the fallback allocator and leaves the heap
unchanged (flag still set), and `free` returns immediately leaving the
heap unchanged; when it is clear on entry, both operations behave as the
unguarded bodies and the flag is clear again on every return path (all
paths are covered because the equations hold for every input, including
`size == 0`, extension failure, and invalid pointers). -/
theorem recursion_guard_spec (pol : allocation_policy_t)
    (fb mres : Option Nat) (h : Heap) (n p : Nat) :
    is_inside_allocator_initial = false ∧
    custom_malloc_guarded pol true fb mres h n = (fb, h, true) ∧
    (custom_malloc_guarded pol false fb mres h n).2.2 = false ∧
    (custom_malloc_guarded pol false fb mres h n).1 = (custom_malloc pol mres h n).1 ∧
    (custom_malloc_guarded pol false fb mres h n).2.1 = (custom_malloc pol mres h n).2 ∧
    custom_free_guarded true h p = (h, true) ∧
    (custom_free_guarded false h p).2 = false ∧
    (custom_free_guarded false h p).1 = custom_free h p := by
  simp [is_inside_allocator_initial, custom_malloc_guarded, custom_free_guarded]

/-- C10 helper: under the `data_ptr` invariant the two candidate tests
agree blockwise, hence the two `any`-scans agree. -/
lemma valid_scan_agree (h : List BlockV) (p : Nat)
    (hinv : ∀ b ∈ h, b.data_ptr = b.addr + BLOCK_META_SIZE) :
    (h.any fun b => !b.is_free && (b.data_ptr == p)) =
      (h.any fun b => !b.is_free && (b.addr + BLOCK_META_SIZE == p)) := by
  induction h with
  | nil => rfl
  | cons x t ih =>
    simp only [List.any_cons]
    rw [hinv x (List.mem_cons_self x t),
      ih fun b hb => hinv b (List.mem_cons_of_mem x hb)]

/-- C10: the superseded `is_valid_address` (stored `data_ptr` comparison)
and the final `is_valid_address` (computed payload-address comparison)
return the same boolean for every pointer, in every heap state where each
reachable block's `data_ptr` equals its header address plus the aligned
header size. -/
theorem is_valid_address_revisions_agree (h : List BlockV) (p : Nat)
    (hinv : ∀ b ∈ h, b.data_ptr = b.addr + BLOCK_META_SIZE) :
    is_valid_address_stored h p = is_valid_address_computed h p := by
  unfold is_valid_address_stored is_valid_address_computed
  split
  · rfl
  · exact valid_scan_agree h p hinv

/-- Witness for `is_valid_address_revisions_agree` on a concrete heap. -/
theorem is_valid_address_revisions_agree_witness :
    is_valid_address_stored [⟨4096, 8, false, 4128⟩, ⟨8192, 8, true, 8224⟩] 4128 =
      is_valid_address_computed [⟨4096, 8, false, 4128⟩, ⟨8192, 8, true, 8224⟩] 4128 :=
  is_valid_address_revisions_agree _ 4128 (by decide)

/-- C1: evaluation of the code at a failing input.  The heap
`[{0, 32, in-use}, {4096, 64, free}]` is reached by two one-mapping
allocations (page-granular `mmap` results 0 and 4096) and a free of the
second; the blocks are NOT physically contiguous (0 + 32 + 32 ≠ 4096), yet
`realloc(32, 64)` takes the in-place-expansion branch (its guard never
tests contiguity), coalesce then merges nothing, split does nothing, and
`p` is returned unchanged with the block still 32 < ALIGN 64 = 64 bytes —
contradicting the specified guarantee that `p` is returned only when the
neighbour is physically contiguous and the block then covers the aligned
request. -/
theorem realloc_inplace_expansion_ignores_contiguity :
    custom_malloc .FIRST_FIT (some 0) [] 32 = (some 32, [⟨0, 32, false⟩]) ∧
    custom_malloc .FIRST_FIT (some 4096) [⟨0, 32, false⟩] 64 =
      (some 4128, [⟨0, 32, false⟩, ⟨4096, 64, false⟩]) ∧
    custom_free [⟨0, 32, false⟩, ⟨4096, 64, false⟩] 4128 =
      [⟨0, 32, false⟩, ⟨4096, 64, true⟩] ∧
    ¬ contiguous ⟨0, 32, false⟩ ⟨4096, 64, true⟩ ∧
    custom_realloc .FIRST_FIT none [⟨0, 32, false⟩, ⟨4096, 64, true⟩] 32 64 =
      (some 32, [⟨0, 32, false⟩, ⟨4096, 64, true⟩]) ∧
    (32 : Nat) < ALIGN 64 := by
  decide

/-! ### Fragmentation rate -/

lemma foldl_largest_le_foldl_total (h : Heap) :
    ∀ a t, a ≤ t →
      h.foldl (fun acc b => if b.is_free then (if acc < b.size then b.size else acc) else acc) a ≤
        h.foldl (fun acc b => if b.is_free then acc + b.size else acc) t := by
  induction h with
  | nil => intro a t hat; simpa using hat
  | cons x rest ih =>
    intro a t hat
    simp only [List.foldl_cons]
    by_cases hx : x.is_free
    · rw [if_pos hx, if_pos hx]
      apply ih
      split <;> omega
    · rw [if_neg hx, if_neg hx]
      exact ih a t hat

lemma largest_free_le_total_free (h : Heap) :
    largest_free_block h ≤ total_free_mem h :=
  foldl_largest_le_foldl_total h 0 0 le_rfl

/-- C9: `fragmentation_rate` returns 0 when there is no free memory,
always lies in `[0, 1]`, and is exactly 0 whenever the largest free block
equals the total free memory. -/
theorem fragmentation_rate_spec (h : Heap) :
    (total_free_mem h = 0 → get_fragmentation_rate h = 0) ∧
    0 ≤ get_fragmentation_rate h ∧
    get_fragmentation_rate h ≤ 1 ∧
    (largest_free_block h = total_free_mem h → get_fragmentation_rate h = 0) := by
  have hLF := largest_free_le_total_free h
  by_cases hF : total_free_mem h = 0
  · refine ⟨fun _ => by simp [get_fragmentation_rate, hF], ?_, ?_, fun _ => ?_⟩ <;>
      simp [get_fragmentation_rate, hF]
  · have hFpos : (0 : ℚ) < (total_free_mem h : ℚ) := by
      exact_mod_cast Nat.pos_of_ne_zero hF
    have hdiv_le : (largest_free_block h : ℚ) / (total_free_mem h : ℚ) ≤ 1 :=
      (div_le_one hFpos).mpr (by exact_mod_cast hLF)
    have hdiv_nonneg : 0 ≤ (largest_free_block h : ℚ) / (total_free_mem h : ℚ) :=
      div_nonneg (by positivity) (le_of_lt hFpos)
    refine ⟨fun h0 => absurd h0 hF, ?_, ?_, fun hLeq => ?_⟩
    · rw [get_fragmentation_rate, if_neg hF]; linarith
    · rw [get_fragmentation_rate, if_neg hF]; linarith
    · rw [get_fragmentation_rate, if_neg hF, hLeq,
        div_self (ne_of_gt hFpos)]
      ring

/-- Witness for `fragmentation_rate_spec` on the empty heap (no free
memory: the rate is exactly 0 and within bounds). -/
theorem fragmentation_rate_spec_witness :
    get_fragmentation_rate [] = 0 ∧
    0 ≤ get_fragmentation_rate [] ∧
    get_fragmentation_rate [] ≤ 1 ∧
    get_fragmentation_rate [⟨0, 16, true⟩] = 0 :=
  ⟨(fragmentation_rate_spec []).1 rfl,
   (fragmentation_rate_spec []).2.1,
   (fragmentation_rate_spec []).2.2.1,
   (fragmentation_rate_spec [⟨0, 16, true⟩]).2.2.2 rfl⟩

/-! ### calloc -/

lemma custom_malloc_zero (pol : allocation_policy_t) (mres : Option Nat) (h : Heap) :
    custom_malloc pol mres h 0 = (none, h) := by
  simp [custom_malloc]

/-- C6: `calloc(number, size)` returns null when the `size_t` product
overflows (detected by `number != 0 && total / number != size`) or when
the product is zero; on success the first `total = number * size` payload
bytes are zero and no byte outside `[p, p + total)` is written. -/
theorem calloc_spec (pol : allocation_policy_t) (mres : Option Nat) (h : Heap)
    (mem : Store) (number size : Nat) :
    ((number ≠ 0 ∧ (number * size) % SIZE_T_MOD / number ≠ size) →
      (custom_calloc pol mres h mem number size).1 = none) ∧
    (number * size = 0 → (custom_calloc pol mres h mem number size).1 = none) ∧
    (∀ p, (custom_calloc pol mres h mem number size).1 = some p →
      (∀ i, i < (number * size) % SIZE_T_MOD →
        (custom_calloc pol mres h mem number size).2.2 (p + i) = 0) ∧
      (∀ a, a < p ∨ p + (number * size) % SIZE_T_MOD ≤ a →
        (custom_calloc pol mres h mem number size).2.2 a = mem a)) := by
  unfold custom_calloc
  by_cases hov : number ≠ 0 ∧ (number * size) % SIZE_T_MOD / number ≠ size
  · rw [if_pos hov]
    exact ⟨fun _ => rfl, fun _ => rfl, fun p hp => by cases hp⟩
  · rw [if_neg hov]
    rcases e : custom_malloc pol mres h ((number * size) % SIZE_T_MOD) with ⟨o, h'⟩
    cases o with
    | none =>
      refine ⟨fun hc => absurd hc hov, fun _ => rfl, fun p hp => ?_⟩
      simp at hp
    | some q =>
      refine ⟨fun hc => absurd hc hov, fun hzero => ?_, fun p hp => ?_⟩
      · rw [hzero, Nat.zero_mod, custom_malloc_zero] at e
        simp at e
      · obtain rfl : q = p := by simpa using hp
        constructor
        · intro i hi
          show memsetStore mem q 0 ((number * size) % SIZE_T_MOD) (q + i) = 0
          unfold memsetStore
          rw [if_pos ⟨Nat.le_add_right q i, by omega⟩]
        · intro a ha
          show memsetStore mem q 0 ((number * size) % SIZE_T_MOD) a = mem a
          unfold memsetStore
          rw [if_neg (by omega)]

/-- Witness for `calloc_spec`: `calloc(3, 5)` on the empty heap zeroes the
15 payload bytes and leaves an unrelated address untouched. -/
theorem calloc_spec_witness :
    (∀ i, i < (3 * 5) % SIZE_T_MOD →
      (custom_calloc .FIRST_FIT (some 4096) [] (fun _ => 7) 3 5).2.2 (4128 + i) = 0) ∧
    (custom_calloc .FIRST_FIT (some 4096) [] (fun _ => 7) 3 5).2.2 9999 = (fun _ => 7) 9999 :=
  ⟨((calloc_spec .FIRST_FIT (some 4096) [] (fun _ => 7) 3 5).2.2 4128 (by decide)).1,
   ((calloc_spec .FIRST_FIT (some 4096) [] (fun _ => 7) 3 5).2.2 4128 (by decide)).2
     9999 (Or.inr (by decide))⟩

/-! ### Coalescing: case analysis and the coalesce invariant -/

/-- Exhaustive description of `coalesce_blocks`: either nothing merges
(and neither neighbour was free-and-contiguous), or exactly the
free-and-contiguous neighbours merge, backward first, then forward. -/
lemma coalesce_blocks_cases (pre : List Block) (b : Block) (post : List Block) :
    (coalesce_blocks pre b post = (pre, b, post) ∧
      (∀ a, pre.getLast? = some a → ¬(a.is_free = true ∧ contiguous a b)) ∧
      (∀ c, post.head? = some c → ¬(c.is_free = true ∧ contiguous b c))) ∨
    (∃ a, pre.getLast? = some a ∧ a.is_free = true ∧ contiguous a b ∧
      coalesce_blocks pre b post =
        (pre.dropLast, { a with size := a.size + BLOCK_META_SIZE + b.size }, post) ∧
      (∀ c, post.head? = some c →
        ¬(c.is_free = true ∧
          contiguous { a with size := a.size + BLOCK_META_SIZE + b.size } c))) ∨
    (∃ c rest, post = c :: rest ∧ c.is_free = true ∧ contiguous b c ∧
      (∀ a, pre.getLast? = some a → ¬(a.is_free = true ∧ contiguous a b)) ∧
      coalesce_blocks pre b post =
        (pre, { b with size := b.size + BLOCK_META_SIZE + c.size }, rest)) ∨
    (∃ a c rest, pre.getLast? = some a ∧ post = c :: rest ∧
      a.is_free = true ∧ contiguous a b ∧ c.is_free = true ∧
      contiguous { a with size := a.size + BLOCK_META_SIZE + b.size } c ∧
      coalesce_blocks pre b post =
        (pre.dropLast,
         { a with size := a.size + BLOCK_META_SIZE + b.size + BLOCK_META_SIZE + c.size },
         rest)) := by
  rcases hl : pre.getLast? with - | a
  · cases post with
    | nil =>
      refine Or.inl ⟨?_, ?_, ?_⟩
      · simp [coalesce_blocks, hl]
      · intro a ha; exact Option.noConfusion ha
      · intro c hc; cases hc
    | cons c rest =>
      by_cases hfc : c.is_free = true ∧ b.addr + BLOCK_META_SIZE + b.size = c.addr
      · refine Or.inr (Or.inr (Or.inl ⟨c, rest, rfl, hfc.1, hfc.2, ?_, ?_⟩))
        · intro a ha; exact Option.noConfusion ha
        · simp [coalesce_blocks, hl, hfc]
      · refine Or.inl ⟨?_, ?_, ?_⟩
        · simp [coalesce_blocks, hl, hfc]
        · intro a ha; exact Option.noConfusion ha
        · intro c' hc'
          obtain rfl : c = c' := by injection hc'
          exact hfc
  · by_cases hab : a.is_free = true ∧ a.addr + BLOCK_META_SIZE + a.size = b.addr
    · cases post with
      | nil =>
        refine Or.inr (Or.inl ⟨a, rfl, hab.1, hab.2, ?_, ?_⟩)
        · simp [coalesce_blocks, hl, hab]
        · intro c hc; cases hc
      | cons c rest =>
        by_cases hmc : c.is_free = true ∧
            a.addr + BLOCK_META_SIZE + (a.size + BLOCK_META_SIZE + b.size) = c.addr
        · refine Or.inr (Or.inr (Or.inr ⟨a, c, rest, rfl, rfl, hab.1, hab.2, hmc.1, hmc.2, ?_⟩))
          simp [coalesce_blocks, hl, hab, hmc]
        · refine Or.inr (Or.inl ⟨a, rfl, hab.1, hab.2, ?_, ?_⟩)
          · simp [coalesce_blocks, hl, hab, hmc]
          · intro c' hc'
            obtain rfl : c = c' := by injection hc'
            exact hmc
    · cases post with
      | nil =>
        refine Or.inl ⟨?_, ?_, ?_⟩
        · simp [coalesce_blocks, hl, hab]
        · intro a' ha'
          obtain rfl : a = a' := by injection ha'
          exact hab
        · intro c hc; cases hc
      | cons c rest =>
        by_cases hfc : c.is_free = true ∧ b.addr + BLOCK_META_SIZE + b.size = c.addr
        · refine Or.inr (Or.inr (Or.inl ⟨c, rest, rfl, hfc.1, hfc.2, ?_, ?_⟩))
          · intro a' ha'
            obtain rfl : a = a' := by injection ha'
            exact hab
          · simp [coalesce_blocks, hl, hab, hfc]
        · refine Or.inl ⟨?_, ?_, ?_⟩
          · simp [coalesce_blocks, hl, hab, hfc]
          · intro a' ha'
            obtain rfl : a = a' := by injection ha'
            exact hab
          · intro c' hc'
            obtain rfl : c = c' := by injection hc'
            exact hfc

/-- Decomposition of `Chain'` around one middle element. -/
lemma chain'_middle {R : Block → Block → Prop} (xs zs : List Block) (y : Block) :
    List.Chain' R (xs ++ y :: zs) ↔
      List.Chain' R xs ∧ List.Chain' R zs ∧
        (∀ x, xs.getLast? = some x → R x y) ∧
        (∀ z, zs.head? = some z → R y z) := by
  rw [List.chain'_append, List.chain'_cons']
  simp only [Option.mem_def, List.head?_cons, Option.some.injEq]
  constructor
  · rintro ⟨h1, ⟨h2, h3⟩, h4⟩
    exact ⟨h1, h3, fun x hx => h4 x hx y rfl, h2⟩
  · rintro ⟨h1, h2, h3, h4⟩
    refine ⟨h1, ⟨h4, h2⟩, ?_⟩
    rintro x hx w rfl
    exact h3 x hx

/-- The coalesce invariant, characterised as a `Chain'` over list-adjacent
pairs: no two list-adjacent blocks are simultaneously free and physically
contiguous. -/
lemma NoCoalesceViolation_iff_chain (h : Heap) :
    NoCoalesceViolation h ↔
      List.Chain' (fun a b => ¬(a.is_free = true ∧ b.is_free = true ∧ contiguous a b)) h := by
  induction h with
  | nil => simp [NoCoalesceViolation, has_coalesce_violation]
  | cons a t ih =>
    cases t with
    | nil => simp [NoCoalesceViolation, has_coalesce_violation]
    | cons b t' =>
      rw [List.chain'_cons, ← ih]
      show (_ || _) = false ↔ _
      rw [Bool.or_eq_false_iff]
      have hfirst : (a.is_free && b.is_free &&
          (a.addr + BLOCK_META_SIZE + a.size == b.addr)) = false ↔
          ¬(a.is_free = true ∧ b.is_free = true ∧ contiguous a b) := by
        constructor
        · rintro h1 ⟨f1, f2, f3⟩
          rw [f1, f2] at h1
          unfold contiguous at f3
          simp [f3] at h1
        · intro h1
          cases hcheck : (a.is_free && b.is_free &&
              (a.addr + BLOCK_META_SIZE + a.size == b.addr)) with
          | false => rfl
          | true =>
            rw [Bool.and_eq_true, Bool.and_eq_true] at hcheck
            exact absurd ⟨hcheck.1.1, hcheck.1.2, beq_iff_eq.mp hcheck.2⟩ h1
      exact and_congr hfirst Iff.rfl

/-- C2 (amended): the coalesce invariant is preserved by `free` followed by
the coalesce pass — if no two list-adjacent blocks are simultaneously free
and physically contiguous before a `free(p)`, none are afterwards — and
`coalesce_blocks` never merges blocks that are not physically contiguous:
with no free physically-contiguous neighbour it changes nothing, a backward
merge happens only for a free physically-contiguous list predecessor, and a
forward merge happens only for a free list successor physically contiguous
with the (possibly already backward-merged) block. -/
theorem free_coalesce_invariant (h : Heap) (p : Nat)
    (hinv : NoCoalesceViolation h) :
    NoCoalesceViolation (custom_free h p) ∧
    (∀ pre b post,
      ((∀ a, pre.getLast? = some a → ¬(a.is_free = true ∧ contiguous a b)) →
       (∀ c, post.head? = some c → ¬(c.is_free = true ∧ contiguous b c)) →
        coalesce_blocks pre b post = (pre, b, post)) ∧
      ((coalesce_blocks pre b post).1 ≠ pre →
        ∃ a, pre.getLast? = some a ∧ a.is_free = true ∧ contiguous a b) ∧
      ((coalesce_blocks pre b post).2.2 ≠ post →
        ∃ c rest, post = c :: rest ∧ c.is_free = true ∧
          (contiguous b c ∨
            ∃ a, pre.getLast? = some a ∧ a.is_free = true ∧ contiguous a b ∧
              contiguous { a with size := a.size + BLOCK_META_SIZE + b.size } c))) := by
  constructor
  · -- the invariant is preserved by free-then-coalesce
    by_cases hp : p = 0
    · simpa [custom_free, hp] using hinv
    · cases hfb : findBlock h p with
      | none => simpa [custom_free, hp, hfb] using hinv
      | some s =>
        obtain ⟨pre, b, post⟩ := s
        obtain ⟨hdec, hfree, -⟩ := findBlock_eq_some h p pre b post hfb
        subst hdec
        simp only [custom_free, if_neg hp, hfb]
        rw [NoCoalesceViolation_iff_chain] at hinv ⊢
        rcases coalesce_blocks_cases pre { b with is_free := true } post with
          ⟨heq, hba, hfo⟩ |
          ⟨a, hl, haf, hac, heq, hfo⟩ |
          ⟨c, rest, hpost, hcf, hbc, hba, heq⟩ |
          ⟨a, c, rest, hl, hpost, haf, hac, hcf, hmc, heq⟩
        · rw [heq]
          obtain ⟨c1, c2, c3, c4⟩ := (chain'_middle pre post b).mp hinv
          refine (chain'_middle pre post _).mpr ⟨c1, c2, ?_, ?_⟩
          · rintro x hx ⟨h1, -, h3⟩
            exact hba x hx ⟨h1, h3⟩
          · rintro z hz ⟨-, h2, h3⟩
            exact hfo z hz ⟨h2, h3⟩
        · have hpre : pre = pre.dropLast ++ [a] :=
            (List.dropLast_append_getLast? a (Option.mem_def.mpr hl)).symm
          rw [heq]
          rw [hpre, List.append_assoc, List.singleton_append] at hinv
          obtain ⟨c1, c2', c3, -⟩ := (chain'_middle pre.dropLast (b :: post) a).mp hinv
          obtain ⟨-, c2⟩ := List.chain'_cons'.mp c2'
          refine (chain'_middle pre.dropLast post _).mpr ⟨c1, c2, ?_, ?_⟩
          · rintro x hx ⟨h1, -, h3⟩
            exact c3 x hx ⟨h1, haf, h3⟩
          · rintro z hz ⟨-, h2, h3⟩
            exact hfo z hz ⟨h2, h3⟩
        · subst hpost
          rw [heq]
          obtain ⟨c1, c2', c3, -⟩ := (chain'_middle pre (c :: rest) b).mp hinv
          obtain ⟨c5, c2⟩ := List.chain'_cons'.mp c2'
          refine (chain'_middle pre rest _).mpr ⟨c1, c2, ?_, ?_⟩
          · rintro x hx ⟨h1, -, h3⟩
            exact hba x hx ⟨h1, h3⟩
          · rintro z hz ⟨-, h2, h3⟩
            refine c5 z (Option.mem_def.mpr hz) ⟨hcf, h2, ?_⟩
            unfold contiguous at hbc h3 ⊢
            simp only [Block.size] at hbc h3 ⊢
            omega
        · subst hpost
          have hpre : pre = pre.dropLast ++ [a] :=
            (List.dropLast_append_getLast? a (Option.mem_def.mpr hl)).symm
          rw [heq]
          rw [hpre, List.append_assoc, List.singleton_append] at hinv
          obtain ⟨c1, c2', c3, -⟩ := (chain'_middle pre.dropLast (b :: c :: rest) a).mp hinv
          obtain ⟨-, c2''⟩ := List.chain'_cons'.mp c2'
          obtain ⟨c5, c2⟩ := List.chain'_cons'.mp c2''
          refine (chain'_middle pre.dropLast rest _).mpr ⟨c1, c2, ?_, ?_⟩
          · rintro x hx ⟨h1, -, h3⟩
            exact c3 x hx ⟨h1, haf, h3⟩
          · rintro z hz ⟨-, h2, h3⟩
            refine c5 z (Option.mem_def.mpr hz) ⟨hcf, h2, ?_⟩
            unfold contiguous at hac hmc h3 ⊢
            simp only [Block.size] at hac hmc h3 ⊢
            omega
  · -- coalesce merges only physically contiguous neighbours
    intro pre b post
    rcases coalesce_blocks_cases pre b post with
      ⟨heq, -, -⟩ |
      ⟨a, hl, haf, hac, heq, -⟩ |
      ⟨c, rest, hpost, hcf, hbc, -, heq⟩ |
      ⟨a, c, rest, hl, hpost, haf, hac, hcf, hmc, heq⟩
    · exact ⟨fun _ _ => heq, fun hne => absurd (by rw [heq]) hne,
        fun hne => absurd (by rw [heq]) hne⟩
    · refine ⟨?_, fun _ => ⟨a, hl, haf, hac⟩, fun hne => ?_⟩
      · intro hnb _
        exact absurd ⟨haf, hac⟩ (hnb a hl)
      · rw [heq] at hne
        exact absurd rfl hne
    · refine ⟨?_, fun hne => ?_, fun _ => ⟨c, rest, hpost, hcf, Or.inl hbc⟩⟩
      · intro _ hnc
        exact absurd ⟨hcf, hbc⟩ (hnc c (by rw [hpost]; rfl))
      · rw [heq] at hne
        exact absurd rfl hne
    · refine ⟨?_, fun _ => ⟨a, hl, haf, hac⟩,
        fun _ => ⟨c, rest, hpost, hcf, Or.inr ⟨a, hl, haf, hac, hmc⟩⟩⟩
      intro hnb _
      exact absurd ⟨haf, hac⟩ (hnb a hl)

/-- Witness for `free_coalesce_invariant`: a concrete two-block heap
satisfying the invariant, freed at a valid pointer. -/
theorem free_coalesce_invariant_witness :
    NoCoalesceViolation (custom_free [⟨0, 8, false⟩, ⟨48, 8, true⟩] 32) ∧
    (∀ pre b post,
      ((∀ a, pre.getLast? = some a → ¬(a.is_free = true ∧ contiguous a b)) →
       (∀ c, post.head? = some c → ¬(c.is_free = true ∧ contiguous b c)) →
        coalesce_blocks pre b post = (pre, b, post)) ∧
      ((coalesce_blocks pre b post).1 ≠ pre →
        ∃ a, pre.getLast? = some a ∧ a.is_free = true ∧ contiguous a b) ∧
      ((coalesce_blocks pre b post).2.2 ≠ post →
        ∃ c rest, post = c :: rest ∧ c.is_free = true ∧
          (contiguous b c ∨
            ∃ a, pre.getLast? = some a ∧ a.is_free = true ∧ contiguous a b ∧
              contiguous { a with size := a.size + BLOCK_META_SIZE + b.size } c))) :=
  free_coalesce_invariant [⟨0, 8, false⟩, ⟨48, 8, true⟩] 32 (by decide)

/-- C2 (counterexample to the claim as stated): a heap state reachable by
`malloc 208; malloc 16; free p1; malloc 96; realloc p2 40` (page-granular
`mmap` results 4096, 8192, 12288) contains, after the realloc shrink, two
list-adjacent free physically-contiguous blocks; a subsequent `free` of the
still-valid second pointer runs the coalesce pass, and afterwards the two
blocks at 4168 and 4224 are still simultaneously free and physically
contiguous — so the invariant does NOT hold after every free-plus-coalesce
on every reachable heap state. -/
theorem free_coalesce_invariant_not_universal :
    custom_malloc .FIRST_FIT (some 4096) [] 208 = (some 4128, [⟨4096, 208, false⟩]) ∧
    custom_malloc .FIRST_FIT (some 8192) [⟨4096, 208, false⟩] 16 =
      (some 8224, [⟨4096, 208, false⟩, ⟨8192, 16, false⟩]) ∧
    custom_free [⟨4096, 208, false⟩, ⟨8192, 16, false⟩] 4128 =
      [⟨4096, 208, true⟩, ⟨8192, 16, false⟩] ∧
    custom_malloc .FIRST_FIT (some 12288) [⟨4096, 208, true⟩, ⟨8192, 16, false⟩] 96 =
      (some 4128, [⟨4096, 96, false⟩, ⟨4224, 80, true⟩, ⟨8192, 16, false⟩]) ∧
    custom_realloc .FIRST_FIT none
        [⟨4096, 96, false⟩, ⟨4224, 80, true⟩, ⟨8192, 16, false⟩] 4128 40 =
      (some 4128,
       [⟨4096, 40, false⟩, ⟨4168, 24, true⟩, ⟨4224, 80, true⟩, ⟨8192, 16, false⟩]) ∧
    is_valid_address
      [⟨4096, 40, false⟩, ⟨4168, 24, true⟩, ⟨4224, 80, true⟩, ⟨8192, 16, false⟩]
      8224 = true ∧
    custom_free
        [⟨4096, 40, false⟩, ⟨4168, 24, true⟩, ⟨4224, 80, true⟩, ⟨8192, 16, false⟩]
        8224 =
      [⟨4096, 40, false⟩, ⟨4168, 24, true⟩, ⟨4224, 80, true⟩, ⟨8192, 16, true⟩] ∧
    ¬ NoCoalesceViolation
        [⟨4096, 40, false⟩, ⟨4168, 24, true⟩, ⟨4224, 80, true⟩, ⟨8192, 16, true⟩] := by
  decide

/-- C4 (counterexample to the claim as stated): three 100-byte blocks from
three separate page-granular heap extensions (`mmap` results 4096, 12288,
20480 — distinct mappings are never exactly adjacent because each mapping
is page-aligned while a block spans 136 bytes).  Freeing `p2` gives
`free_count = 1` as claimed, but freeing `p1` then gives `free_count = 2`,
not 1: the final coalesce refuses to merge the list-adjacent free blocks
because they are not physically contiguous.  Freeing `p3` gives 3. -/
theorem coalesce_cascade_counterexample :
    custom_malloc .FIRST_FIT (some 4096) [] 100 =
      (some 4128, [⟨4096, 104, false⟩]) ∧
    custom_malloc .FIRST_FIT (some 12288) [⟨4096, 104, false⟩] 100 =
      (some 12320, [⟨4096, 104, false⟩, ⟨12288, 104, false⟩]) ∧
    custom_malloc .FIRST_FIT (some 20480)
        [⟨4096, 104, false⟩, ⟨12288, 104, false⟩] 100 =
      (some 20512, [⟨4096, 104, false⟩, ⟨12288, 104, false⟩, ⟨20480, 104, false⟩]) ∧
    (memory_usage_stats (custom_free
        [⟨4096, 104, false⟩, ⟨12288, 104, false⟩, ⟨20480, 104, false⟩]
        12320)).free_blocks = 1 ∧
    (memory_usage_stats (custom_free (custom_free
        [⟨4096, 104, false⟩, ⟨12288, 104, false⟩, ⟨20480, 104, false⟩]
        12320) 4128)).free_blocks = 2 ∧
    (memory_usage_stats (custom_free (custom_free (custom_free
        [⟨4096, 104, false⟩, ⟨12288, 104, false⟩, ⟨20480, 104, false⟩]
        12320) 4128) 20512)).free_blocks = 3 := by
  decide

/-- C4 (amended): for three 100-byte blocks created by three separate heap
extensions at addresses `a1, a2, a3`, with the extensions pairwise
non-contiguous (which always holds for real mappings, since `mmap` results
are page-aligned while a block spans `BLOCK_META_SIZE + 104 = 136` bytes):
freeing `p2` yields `free_count = 1`, freeing `p1` then yields
`free_count = 2`, and freeing `p3` yields `free_count = 3` — the
contiguity-checking coalesce never merges blocks from distinct mappings,
so the spec's `1 / 1 / 1` cascade occurs only in the exceptional case of
exactly adjacent mappings. -/
theorem coalesce_cascade_separate_mappings (a1 a2 a3 : Nat) (hp : Heap)
    (h12 : a1 ≠ a2)
    (hc12 : a1 + BLOCK_META_SIZE + 104 ≠ a2)
    (hc23 : a2 + BLOCK_META_SIZE + 104 ≠ a3)
    (hhp : hp = (custom_malloc .FIRST_FIT (some a3)
      (custom_malloc .FIRST_FIT (some a2)
        (custom_malloc .FIRST_FIT (some a1) [] 100).2 100).2 100).2) :
    hp = [⟨a1, 104, false⟩, ⟨a2, 104, false⟩, ⟨a3, 104, false⟩] ∧
    (memory_usage_stats
      (custom_free hp (a2 + BLOCK_META_SIZE))).free_blocks = 1 ∧
    (memory_usage_stats
      (custom_free (custom_free hp (a2 + BLOCK_META_SIZE))
        (a1 + BLOCK_META_SIZE))).free_blocks = 2 ∧
    (memory_usage_stats
      (custom_free (custom_free (custom_free hp (a2 + BLOCK_META_SIZE))
        (a1 + BLOCK_META_SIZE)) (a3 + BLOCK_META_SIZE))).free_blocks = 3 := by
  have hB : BLOCK_META_SIZE = 32 := by decide
  have hA : ALIGN 100 = 104 := by decide
  have n12 : ¬(a1 + 32 = a2 + 32) := fun hcontra => h12 (by omega)
  have nc12 : ¬(a1 + 32 + 104 = a2) := by rw [hB] at hc12; exact hc12
  have nc23 : ¬(a2 + 32 + 104 = a3) := by rw [hB] at hc23; exact hc23
  have e1 : custom_malloc .FIRST_FIT (some a1) [] 100 =
      (some (a1 + 32), [⟨a1, 104, false⟩]) := by
    simp [custom_malloc, extend_heap, hA, hB]
  have e2 : custom_malloc .FIRST_FIT (some a2) [⟨a1, 104, false⟩] 100 =
      (some (a2 + 32), [⟨a1, 104, false⟩, ⟨a2, 104, false⟩]) := by
    simp [custom_malloc, extend_heap, find_free_block, findAux, fits, hA, hB]
  have e3 : custom_malloc .FIRST_FIT (some a3)
        [⟨a1, 104, false⟩, ⟨a2, 104, false⟩] 100 =
      (some (a3 + 32), [⟨a1, 104, false⟩, ⟨a2, 104, false⟩, ⟨a3, 104, false⟩]) := by
    simp [custom_malloc, extend_heap, find_free_block, findAux, fits, hA, hB]
  have ehp : hp = [⟨a1, 104, false⟩, ⟨a2, 104, false⟩, ⟨a3, 104, false⟩] := by
    rw [hhp, e1]; dsimp only; rw [e2]; dsimp only; rw [e3]
  have f1 : custom_free [⟨a1, 104, false⟩, ⟨a2, 104, false⟩, ⟨a3, 104, false⟩]
        (a2 + 32) =
      [⟨a1, 104, false⟩, ⟨a2, 104, true⟩, ⟨a3, 104, false⟩] := by
    simp [custom_free, findBlock, coalesce_blocks, hB, n12]
  have f2 : custom_free [⟨a1, 104, false⟩, ⟨a2, 104, true⟩, ⟨a3, 104, false⟩]
        (a1 + 32) =
      [⟨a1, 104, true⟩, ⟨a2, 104, true⟩, ⟨a3, 104, false⟩] := by
    simp [custom_free, findBlock, coalesce_blocks, hB, nc12]
  have f3 : custom_free [⟨a1, 104, true⟩, ⟨a2, 104, true⟩, ⟨a3, 104, false⟩]
        (a3 + 32) =
      [⟨a1, 104, true⟩, ⟨a2, 104, true⟩, ⟨a3, 104, true⟩] := by
    simp [custom_free, findBlock, coalesce_blocks, hB, nc23]
  rw [ehp, hB, f1, f2, f3]
  refine ⟨rfl, ?_, ?_, ?_⟩ <;> simp [memory_usage_stats]

/-- Witness for `coalesce_cascade_separate_mappings` at the concrete
page-aligned mapping addresses 4096, 12288, 20480. -/
theorem coalesce_cascade_separate_mappings_witness :
    (custom_malloc allocation_policy_t.FIRST_FIT (some 20480)
      (custom_malloc allocation_policy_t.FIRST_FIT (some 12288)
        (custom_malloc allocation_policy_t.FIRST_FIT (some 4096) [] 100).2 100).2 100).2 =
      [⟨4096, 104, false⟩, ⟨12288, 104, false⟩, ⟨20480, 104, false⟩] ∧
    (memory_usage_stats
      (custom_free (custom_malloc allocation_policy_t.FIRST_FIT (some 20480)
        (custom_malloc allocation_policy_t.FIRST_FIT (some 12288)
          (custom_malloc allocation_policy_t.FIRST_FIT (some 4096) [] 100).2 100).2 100).2
        (12288 + BLOCK_META_SIZE))).free_blocks = 1 ∧
    (memory_usage_stats
      (custom_free (custom_free (custom_malloc allocation_policy_t.FIRST_FIT (some 20480)
        (custom_malloc allocation_policy_t.FIRST_FIT (some 12288)
          (custom_malloc allocation_policy_t.FIRST_FIT (some 4096) [] 100).2 100).2 100).2
        (12288 + BLOCK_META_SIZE)) (4096 + BLOCK_META_SIZE))).free_blocks = 2 ∧
    (memory_usage_stats
      (custom_free (custom_free (custom_free
        (custom_malloc allocation_policy_t.FIRST_FIT (some 20480)
          (custom_malloc allocation_policy_t.FIRST_FIT (some 12288)
            (custom_malloc allocation_policy_t.FIRST_FIT (some 4096) [] 100).2 100).2 100).2
        (12288 + BLOCK_META_SIZE)) (4096 + BLOCK_META_SIZE))
        (20480 + BLOCK_META_SIZE))).free_blocks = 3 :=
  coalesce_cascade_separate_mappings 4096 12288 20480 _
    (by decide) (by decide) (by decide) rfl

/-! ### The placement loop returns a fitting block of the list -/

/-- Any block returned by the `find_free_block` loop is a reachable block
(the list splits around it) and satisfies the candidate condition, provided
the accumulators already do. -/
lemma findAux_seg (pol : allocation_policy_t) (r : Nat) (rest : List Block) :
    ∀ done best minDiff worst maxSize pre b post,
      (∀ q c s, best = some (q, c, s) → done ++ rest = q ++ c :: s ∧ fits r c) →
      (∀ q c s, worst = some (q, c, s) → done ++ rest = q ++ c :: s ∧ fits r c) →
      findAux pol r done rest best minDiff worst maxSize = some (pre, b, post) →
      done ++ rest = pre ++ b :: post ∧ fits r b := by
  induction rest with
  | nil =>
    intro done best minDiff worst maxSize pre b post hb hw e
    cases pol with
    | FIRST_FIT => simp [findAux] at e
    | BEST_FIT =>
      have hbs : best = some (pre, b, post) := by simpa [findAux] using e
      simpa using hb pre b post hbs
    | WORST_FIT =>
      have hws : worst = some (pre, b, post) := by simpa [findAux] using e
      simpa using hw pre b post hws
  | cons x t ih =>
    intro done best minDiff worst maxSize pre b post hb hw e
    have happ : (done ++ [x]) ++ t = done ++ x :: t := by simp
    by_cases hf : fits r x
    · cases pol with
      | FIRST_FIT =>
        simp only [findAux] at e
        rw [if_pos hf] at e
        obtain ⟨rfl, rfl, rfl⟩ : done = pre ∧ x = b ∧ t = post := by
          injection e with e'
          injection e' with e1 e2
          injection e2 with e3 e4
          exact ⟨e1, e3, e4⟩
        exact ⟨rfl, hf⟩
      | BEST_FIT =>
        simp only [findAux] at e
        rw [if_pos hf] at e
        by_cases hperf : x.size = r
        · rw [if_pos hperf] at e
          obtain ⟨rfl, rfl, rfl⟩ : done = pre ∧ x = b ∧ t = post := by
            injection e with e'
            injection e' with e1 e2
            injection e2 with e3 e4
            exact ⟨e1, e3, e4⟩
          exact ⟨rfl, hf⟩
        · rw [if_neg hperf] at e
          by_cases hlt : x.size - r < minDiff
          · rw [if_pos hlt] at e
            have hres := ih (done ++ [x]) (some (done, x, t)) (x.size - r) worst maxSize
              pre b post
              (by
                intro q c s hq
                obtain ⟨rfl, rfl, rfl⟩ : done = q ∧ x = c ∧ t = s := by
                  injection hq with e'
                  injection e' with e1 e2
                  injection e2 with e3 e4
                  exact ⟨e1, e3, e4⟩
                exact ⟨happ, hf⟩)
              (by
                intro q c s hq
                rw [happ]
                exact hw q c s hq)
              e
            rwa [happ] at hres
          · rw [if_neg hlt] at e
            have hres := ih (done ++ [x]) best minDiff worst maxSize pre b post
              (by intro q c s hq; rw [happ]; exact hb q c s hq)
              (by intro q c s hq; rw [happ]; exact hw q c s hq) e
            rwa [happ] at hres
      | WORST_FIT =>
        simp only [findAux] at e
        rw [if_pos hf] at e
        by_cases hgt : maxSize < x.size
        · rw [if_pos hgt] at e
          have hres := ih (done ++ [x]) best minDiff (some (done, x, t)) x.size
            pre b post
            (by intro q c s hq; rw [happ]; exact hb q c s hq)
            (by
              intro q c s hq
              obtain ⟨rfl, rfl, rfl⟩ : done = q ∧ x = c ∧ t = s := by
                injection hq with e'
                injection e' with e1 e2
                injection e2 with e3 e4
                exact ⟨e1, e3, e4⟩
              exact ⟨happ, hf⟩)
            e
          rwa [happ] at hres
        · rw [if_neg hgt] at e
          have hres := ih (done ++ [x]) best minDiff worst maxSize pre b post
            (by intro q c s hq; rw [happ]; exact hb q c s hq)
            (by intro q c s hq; rw [happ]; exact hw q c s hq) e
          rwa [happ] at hres
    · simp only [findAux] at e
      rw [if_neg hf] at e
      have hres := ih (done ++ [x]) best minDiff worst maxSize pre b post
        (by intro q c s hq; rw [happ]; exact hb q c s hq)
        (by intro q c s hq; rw [happ]; exact hw q c s hq) e
      rwa [happ] at hres

/-- `find_free_block` only returns a reachable free block large enough for
the request. -/
lemma find_free_block_seg (pol : allocation_policy_t) (h : Heap) (r : Nat)
    (pre : List Block) (b : Block) (post : List Block)
    (e : find_free_block pol h r = some (pre, b, post)) :
    h = pre ++ b :: post ∧ fits r b := by
  have := findAux_seg pol r h [] none (SIZE_T_MOD - 1) none 0 pre b post
    (fun q c s hq => Option.noConfusion hq)
    (fun q c s hq => Option.noConfusion hq) e
  simpa using this

/-- C5: `alloc(0)` returns null, and every successful `alloc(n)` returns
an 8-byte-aligned pointer to a block of size at least `ALIGN n`, the size
being a multiple of 8 — given the data-model invariant that heap blocks
have 8-aligned sizes and header addresses and that `mmap` results are
aligned (they are page-aligned). -/
theorem malloc_alignment_spec (pol : allocation_policy_t) (mres : Option Nat)
    (h : Heap) (n : Nat)
    (hh : ∀ b ∈ h, b.size % 8 = 0 ∧ b.addr % 8 = 0)
    (hm : ∀ a, mres = some a → a % 8 = 0) :
    custom_malloc pol mres h 0 = (none, h) ∧
    (∀ p h', custom_malloc pol mres h n = (some p, h') →
      ∃ b, b ∈ h' ∧ b.addr + BLOCK_META_SIZE = p ∧ ALIGN n ≤ b.size ∧
        b.size % 8 = 0 ∧ p % 8 = 0) := by
  have hB : BLOCK_META_SIZE = 32 := by decide
  refine ⟨by simp [custom_malloc], ?_⟩
  intro p h' e
  by_cases hn : n = 0
  · rw [hn, custom_malloc_zero] at e
    simp at e
  · simp only [custom_malloc, if_neg hn] at e
    cases h with
    | nil =>
      cases hm' : mres with
      | none => rw [hm'] at e; simp [extend_heap] at e
      | some a =>
        rw [hm'] at e
        simp only [extend_heap] at e
        injection e with e1 e2
        injection e1 with e1'
        subst e1'
        subst e2
        refine ⟨⟨a, ALIGN n, false⟩, by simp, rfl, le_rfl, ALIGN_mod_eight n, ?_⟩
        have ha := hm a hm'
        rw [hB]
        omega
    | cons y ys =>
      cases hfind : find_free_block pol (y :: ys) (ALIGN n) with
      | none =>
        simp only [hfind] at e
        cases hm' : mres with
        | none => rw [hm'] at e; simp [extend_heap] at e
        | some a =>
          rw [hm'] at e
          simp only [extend_heap] at e
          injection e with e1 e2
          injection e1 with e1'
          subst e1'
          subst e2
          refine ⟨⟨a, ALIGN n, false⟩, by simp, rfl, le_rfl, ALIGN_mod_eight n, ?_⟩
          have ha := hm a hm'
          rw [hB]
          omega
      | some s =>
        obtain ⟨pre, c, post⟩ := s
        simp only [hfind] at e
        obtain ⟨hdec, hcfree, hcsize⟩ :
            (y :: ys : List Block) = pre ++ c :: post ∧ c.is_free = true ∧
              ALIGN n ≤ c.size := by
          obtain ⟨h1, h2, h3⟩ := find_free_block_seg pol (y :: ys) (ALIGN n) pre c post hfind
          exact ⟨h1, h2, h3⟩
        have hcmem : c ∈ (y :: ys : List Block) := by
          rw [hdec]
          exact List.mem_append_right _ (List.mem_cons_self _ _)
        obtain ⟨hcs, hca⟩ := hh c hcmem
        injection e with e1 e2
        injection e1 with e1'
        subst e1'
        subst e2
        by_cases hsplit : ALIGN n + BLOCK_META_SIZE + ALIGNMENT ≤ c.size
        · refine ⟨⟨c.addr, ALIGN n, false⟩, ?_, rfl, le_rfl, ALIGN_mod_eight n, ?_⟩
          · rw [split_block, if_pos hsplit]
            simp [mark_used_head]
          · rw [hB]; omega
        · refine ⟨⟨c.addr, c.size, false⟩, ?_, rfl, hcsize, hcs, ?_⟩
          · rw [split_block, if_neg hsplit]
            simp [mark_used_head]
          · rw [hB]; omega

/-- Witness for `malloc_alignment_spec`: `alloc(5)` on the empty heap with
a page-aligned mapping. -/
theorem malloc_alignment_spec_witness :
    custom_malloc .FIRST_FIT (some 4096) [] 0 = (none, []) ∧
    (∀ p h', custom_malloc .FIRST_FIT (some 4096) [] 5 = (some p, h') →
      ∃ b, b ∈ h' ∧ b.addr + BLOCK_META_SIZE = p ∧ ALIGN 5 ≤ b.size ∧
        b.size % 8 = 0 ∧ p % 8 = 0) :=
  malloc_alignment_spec .FIRST_FIT (some 4096) [] 5
    (by intro b hb; cases hb)
    (by intro a ha; injection ha with ha'; subst ha'; decide)

/-! ### Full characterisation of the placement policies -/

lemma seg_some_inj {q pre : List Block} {c b : Block} {s post : List Block}
    (e : (some (q, c, s) : Option Seg) = some (pre, b, post)) :
    q = pre ∧ c = b ∧ s = post := by
  simpa using e

/-- If the loop is started with a `some` best-fit accumulator it cannot
return `none` under BEST_FIT. -/
lemma findAux_best_isSome (r : Nat) (rest : List Block) :
    ∀ done s minDiff worst maxSize,
      (findAux .BEST_FIT r done rest (some s) minDiff worst maxSize).isSome := by
  induction rest with
  | nil => intro done s minDiff worst maxSize; simp [findAux]
  | cons x t ih =>
    intro done s minDiff worst maxSize
    simp only [findAux]
    by_cases hf : fits r x
    · rw [if_pos hf]
      by_cases hperf : x.size = r
      · rw [if_pos hperf]; rfl
      · rw [if_neg hperf]
        by_cases hlt : x.size - r < minDiff
        · rw [if_pos hlt]; exact ih _ _ _ _ _
        · rw [if_neg hlt]; exact ih _ _ _ _ _
    · rw [if_neg hf]; exact ih _ _ _ _ _

/-- If the loop is started with a `some` worst-fit accumulator it cannot
return `none` under WORST_FIT. -/
lemma findAux_worst_isSome (r : Nat) (rest : List Block) :
    ∀ done best minDiff s maxSize,
      (findAux .WORST_FIT r done rest best minDiff (some s) maxSize).isSome := by
  induction rest with
  | nil => intro done best minDiff s maxSize; simp [findAux]
  | cons x t ih =>
    intro done best minDiff s maxSize
    simp only [findAux]
    by_cases hf : fits r x
    · rw [if_pos hf]
      by_cases hgt : maxSize < x.size
      · rw [if_pos hgt]; exact ih _ _ _ _ _
      · rw [if_neg hgt]; exact ih _ _ _ _ _
    · rw [if_neg hf]; exact ih _ _ _ _ _

lemma findAux_first_none_iff (r : Nat) (rest : List Block) :
    ∀ done best minDiff worst maxSize,
      (findAux .FIRST_FIT r done rest best minDiff worst maxSize = none ↔
        ∀ x ∈ rest, ¬ fits r x) := by
  induction rest with
  | nil => intro done best minDiff worst maxSize; simp [findAux]
  | cons x t ih =>
    intro done best minDiff worst maxSize
    simp only [findAux]
    by_cases hf : fits r x
    · rw [if_pos hf]
      exact iff_of_false (by simp) fun hall => hall x (List.mem_cons_self x t) hf
    · rw [if_neg hf]
      rw [ih (done ++ [x]) best minDiff worst maxSize]
      constructor
      · intro h1 z hz
        rcases List.mem_cons.mp hz with rfl | hz'
        · exact hf
        · exact h1 z hz'
      · intro h1 z hz
        exact h1 z (List.mem_cons_of_mem x hz)

lemma findAux_best_none_iff (r : Nat) (hr : 0 < r) (rest : List Block) :
    ∀ done best minDiff worst maxSize,
      (∀ x ∈ rest, x.size < SIZE_T_MOD) →
      (best = none → minDiff = SIZE_T_MOD - 1) →
      (findAux .BEST_FIT r done rest best minDiff worst maxSize = none ↔
        best = none ∧ ∀ x ∈ rest, ¬ fits r x) := by
  induction rest with
  | nil =>
    intro done best minDiff worst maxSize _ _
    simp [findAux]
  | cons x t ih =>
    intro done best minDiff worst maxSize hsz hminv
    simp only [findAux]
    by_cases hf : fits r x
    · rw [if_pos hf]
      have hRHS' : ¬(best = none ∧ ∀ z ∈ x :: t, ¬ fits r z) := by
        rintro ⟨-, hall⟩
        exact hall x (List.mem_cons_self x t) hf
      by_cases hperf : x.size = r
      · rw [if_pos hperf]
        exact iff_of_false (by simp) hRHS'
      · rw [if_neg hperf]
        by_cases hlt : x.size - r < minDiff
        · rw [if_pos hlt]
          refine iff_of_false ?_ hRHS'
          intro hnone
          have := findAux_best_isSome r t (done ++ [x]) (done, x, t) (x.size - r) worst maxSize
          rw [hnone] at this
          cases this
        · rw [if_neg hlt]
          rcases hbest : best with - | s
          · exfalso
            apply hlt
            rw [hminv hbest]
            have h1 := hsz x (List.mem_cons_self x t)
            have h2 := hf.2
            have h64 : SIZE_T_MOD = 18446744073709551616 := by norm_num [SIZE_T_MOD]
            omega
          · refine iff_of_false ?_ (by rintro ⟨hc, -⟩; cases hc)
            intro hnone
            have := findAux_best_isSome r t (done ++ [x]) s minDiff worst maxSize
            rw [hnone] at this
            cases this
    · rw [if_neg hf]
      rw [ih (done ++ [x]) best minDiff worst maxSize
        (fun z hz => hsz z (List.mem_cons_of_mem x hz)) hminv]
      constructor
      · rintro ⟨h1, h2⟩
        refine ⟨h1, fun z hz => ?_⟩
        rcases List.mem_cons.mp hz with rfl | hz'
        · exact hf
        · exact h2 z hz'
      · rintro ⟨h1, h2⟩
        exact ⟨h1, fun z hz => h2 z (List.mem_cons_of_mem x hz)⟩

lemma findAux_worst_none_iff (r : Nat) (hr : 0 < r) (rest : List Block) :
    ∀ done best minDiff worst maxSize,
      (worst = none → maxSize = 0) →
      (findAux .WORST_FIT r done rest best minDiff worst maxSize = none ↔
        worst = none ∧ ∀ x ∈ rest, ¬ fits r x) := by
  induction rest with
  | nil =>
    intro done best minDiff worst maxSize _
    simp [findAux]
  | cons x t ih =>
    intro done best minDiff worst maxSize hminv
    simp only [findAux]
    by_cases hf : fits r x
    · rw [if_pos hf]
      have hRHS' : ¬(worst = none ∧ ∀ z ∈ x :: t, ¬ fits r z) := by
        rintro ⟨-, hall⟩
        exact hall x (List.mem_cons_self x t) hf
      by_cases hgt : maxSize < x.size
      · rw [if_pos hgt]
        refine iff_of_false ?_ hRHS'
        intro hnone
        have := findAux_worst_isSome r t (done ++ [x]) best minDiff (done, x, t) x.size
        rw [hnone] at this
        cases this
      · rw [if_neg hgt]
        rcases hworst : worst with - | s
        · exfalso
          have h0 := hminv hworst
          have h2 := hf.2
          omega
        · refine iff_of_false ?_ (by rintro ⟨hc, -⟩; cases hc)
          intro hnone
          have := findAux_worst_isSome r t (done ++ [x]) best minDiff s maxSize
          rw [hnone] at this
          cases this
    · rw [if_neg hf]
      rw [ih (done ++ [x]) best minDiff worst maxSize hminv]
      constructor
      · rintro ⟨h1, h2⟩
        refine ⟨h1, fun z hz => ?_⟩
        rcases List.mem_cons.mp hz with rfl | hz'
        · exact hf
        · exact h2 z hz'
      · rintro ⟨h1, h2⟩
        exact ⟨h1, fun z hz => h2 z (List.mem_cons_of_mem x hz)⟩

/-- FIRST_FIT returns the first fitting block: everything skipped before
the returned block does not fit. -/
lemma findAux_first_char (r : Nat) (rest : List Block) :
    ∀ done best minDiff worst maxSize pre b post,
      findAux .FIRST_FIT r done rest best minDiff worst maxSize = some (pre, b, post) →
      (∃ u, pre = done ++ u ∧ rest = u ++ b :: post ∧ ∀ d ∈ u, ¬ fits r d) ∧
        fits r b := by
  induction rest with
  | nil =>
    intro done best minDiff worst maxSize pre b post e
    simp [findAux] at e
  | cons x t ih =>
    intro done best minDiff worst maxSize pre b post e
    simp only [findAux] at e
    by_cases hf : fits r x
    · rw [if_pos hf] at e
      obtain ⟨rfl, rfl, rfl⟩ := seg_some_inj e
      exact ⟨⟨[], by simp, by simp, by simp⟩, hf⟩
    · rw [if_neg hf] at e
      obtain ⟨⟨u, hpre, hrest, hnofit⟩, hfit⟩ :=
        ih (done ++ [x]) best minDiff worst maxSize pre b post e
      refine ⟨⟨x :: u, by rw [hpre]; simp, by rw [hrest]; simp, ?_⟩, hfit⟩
      intro d hd
      rcases List.mem_cons.mp hd with rfl | hd'
      · exact hf
      · exact hnofit d hd'

/-- BEST_FIT invariant-carrying characterisation: the returned block fits,
its surplus is minimal among all fitting blocks of the list, and it is
strictly smaller-surplus than every fitting block that precedes it
(earliest on ties; a perfect fit short-circuits, which coincides with
this description because a surplus of 0 is globally minimal). -/
lemma findAux_best_char (r : Nat) (hr : 0 < r) (rest : List Block) :
    ∀ done best minDiff worst maxSize pre b post,
      (∀ x ∈ rest, x.size < SIZE_T_MOD) →
      (best = none → minDiff = SIZE_T_MOD - 1 ∧ ∀ d ∈ done, ¬ fits r d) →
      (∀ q c s, best = some (q, c, s) →
        (∃ u, done = q ++ c :: u ∧ s = u ++ rest) ∧ fits r c ∧ r < c.size ∧
        minDiff = c.size - r ∧
        (∀ d ∈ done, fits r d → c.size - r ≤ d.size - r) ∧
        (∀ d ∈ q, fits r d → c.size - r < d.size - r)) →
      (∀ d ∈ done, fits r d → d.size ≠ r) →
      findAux .BEST_FIT r done rest best minDiff worst maxSize = some (pre, b, post) →
      done ++ rest = pre ++ b :: post ∧ fits r b ∧
      (∀ d ∈ done ++ rest, fits r d → b.size - r ≤ d.size - r) ∧
      (∀ d ∈ pre, fits r d → b.size - r < d.size - r) := by
  induction rest with
  | nil =>
    intro done best minDiff worst maxSize pre b post _ _ hsome hnoperf e
    have hbs : best = some (pre, b, post) := by simpa [findAux] using e
    obtain ⟨⟨u, hdone, hs⟩, hfit, -, -, hmin, hstrict⟩ := hsome pre b post hbs
    rw [List.append_nil] at hs
    subst hs
    refine ⟨by simp [hdone], hfit, ?_, hstrict⟩
    intro d hd hfd
    rw [List.append_nil] at hd
    exact hmin d hd hfd
  | cons x t ih =>
    intro done best minDiff worst maxSize pre b post hsz hnone hsome hnoperf e
    have happ : (done ++ [x]) ++ t = done ++ x :: t := by simp
    have hszt : ∀ z ∈ t, z.size < SIZE_T_MOD :=
      fun z hz => hsz z (List.mem_cons_of_mem x hz)
    simp only [findAux] at e
    by_cases hf : fits r x
    · rw [if_pos hf] at e
      by_cases hperf : x.size = r
      · rw [if_pos hperf] at e
        obtain ⟨rfl, rfl, rfl⟩ := seg_some_inj e
        have hdiff0 : x.size - r = 0 := by omega
        refine ⟨rfl, hf, ?_, ?_⟩
        · intro d hd hfd
          rw [hdiff0]
          exact Nat.zero_le _
        · intro d hd hfd
          have hne := hnoperf d hd hfd
          have hle := hfd.2
          omega
      · rw [if_neg hperf] at e
        by_cases hlt : x.size - r < minDiff
        · rw [if_pos hlt] at e
          have hres := ih (done ++ [x]) (some (done, x, t)) (x.size - r) worst maxSize
            pre b post hszt
            (fun hc => Option.noConfusion hc)
            (by
              intro q c s hq
              obtain ⟨rfl, rfl, rfl⟩ := seg_some_inj hq
              refine ⟨⟨[], by simp, by simp⟩, hf, by have := hf.2; omega, rfl, ?_, ?_⟩
              · intro d hd hfd
                rcases List.mem_append.mp hd with hd' | hd'
                · rcases hbest : best with - | ⟨q0, c0, s0⟩
                  · exact absurd hfd ((hnone hbest).2 d hd')
                  · obtain ⟨-, -, -, hmd0, hmin0, -⟩ := hsome q0 c0 s0 hbest
                    have hd2 := hmin0 d hd' hfd
                    rw [hmd0] at hlt
                    omega
                · obtain rfl := List.mem_singleton.mp hd'
                  exact le_rfl
              · intro d hd hfd
                rcases hbest : best with - | ⟨q0, c0, s0⟩
                · exact absurd hfd ((hnone hbest).2 d hd)
                · obtain ⟨-, -, -, hmd0, hmin0, -⟩ := hsome q0 c0 s0 hbest
                  have hd2 := hmin0 d hd hfd
                  rw [hmd0] at hlt
                  omega)
            (by
              intro d hd hfd
              rcases List.mem_append.mp hd with hd' | hd'
              · exact hnoperf d hd' hfd
              · obtain rfl := List.mem_singleton.mp hd'
                exact hperf)
            e
          rwa [happ] at hres
        · rw [if_neg hlt] at e
          rcases hbest : best with - | ⟨q0, c0, s0⟩
          · exfalso
            obtain ⟨hmd, -⟩ := hnone hbest
            apply hlt
            rw [hmd]
            have h1 := hsz x (List.mem_cons_self x t)
            have h2 := hf.2
            have h64 : SIZE_T_MOD = 18446744073709551616 := by norm_num [SIZE_T_MOD]
            omega
          · rw [hbest] at e
            obtain ⟨⟨u, hdone, hs⟩, hfit0, hrc0, hmd0, hmin0, hstrict0⟩ :=
              hsome q0 c0 s0 hbest
            have hres := ih (done ++ [x]) (some (q0, c0, s0)) minDiff worst maxSize
              pre b post hszt
              (fun hc => Option.noConfusion hc)
              (by
                intro q c s hq
                obtain ⟨rfl, rfl, rfl⟩ := seg_some_inj hq
                refine ⟨⟨u ++ [x], by rw [hdone]; simp, by rw [hs]; simp⟩,
                  hfit0, hrc0, hmd0, ?_, hstrict0⟩
                intro d hd hfd
                rcases List.mem_append.mp hd with hd' | hd'
                · exact hmin0 d hd' hfd
                · obtain rfl := List.mem_singleton.mp hd'
                  rw [hmd0] at hlt
                  omega)
              (by
                intro d hd hfd
                rcases List.mem_append.mp hd with hd' | hd'
                · exact hnoperf d hd' hfd
                · obtain rfl := List.mem_singleton.mp hd'
                  exact hperf)
              e
            rwa [happ] at hres
    · rw [if_neg hf] at e
      have hres := ih (done ++ [x]) best minDiff worst maxSize pre b post hszt
        (fun hb0 => ⟨(hnone hb0).1, by
          intro d hd
          rcases List.mem_append.mp hd with hd' | hd'
          · exact (hnone hb0).2 d hd'
          · obtain rfl := List.mem_singleton.mp hd'
            exact hf⟩)
        (by
          intro q c s hq
          obtain ⟨⟨u, hdone, hs⟩, h2, h3, h4, h5, h6⟩ := hsome q c s hq
          refine ⟨⟨u ++ [x], by rw [hdone]; simp, by rw [hs]; simp⟩, h2, h3, h4, ?_, h6⟩
          intro d hd hfd
          rcases List.mem_append.mp hd with hd' | hd'
          · exact h5 d hd' hfd
          · obtain rfl := List.mem_singleton.mp hd'
            exact absurd hfd hf)
        (by
          intro d hd hfd
          rcases List.mem_append.mp hd with hd' | hd'
          · exact hnoperf d hd' hfd
          · obtain rfl := List.mem_singleton.mp hd'
            exact absurd hfd hf)
        e
      rwa [happ] at hres

/-- WORST_FIT invariant-carrying characterisation: the returned block
fits, has maximal size among all fitting blocks, and is strictly larger
than every fitting block that precedes it (earliest on ties). -/
lemma findAux_worst_char (r : Nat) (hr : 0 < r) (rest : List Block) :
    ∀ done best minDiff worst maxSize pre b post,
      (worst = none → maxSize = 0 ∧ ∀ d ∈ done, ¬ fits r d) →
      (∀ q c s, worst = some (q, c, s) →
        (∃ u, done = q ++ c :: u ∧ s = u ++ rest) ∧ fits r c ∧
        maxSize = c.size ∧
        (∀ d ∈ done, fits r d → d.size ≤ c.size) ∧
        (∀ d ∈ q, fits r d → d.size < c.size)) →
      findAux .WORST_FIT r done rest best minDiff worst maxSize = some (pre, b, post) →
      done ++ rest = pre ++ b :: post ∧ fits r b ∧
      (∀ d ∈ done ++ rest, fits r d → d.size ≤ b.size) ∧
      (∀ d ∈ pre, fits r d → d.size < b.size) := by
  induction rest with
  | nil =>
    intro done best minDiff worst maxSize pre b post _ hsome e
    have hws : worst = some (pre, b, post) := by simpa [findAux] using e
    obtain ⟨⟨u, hdone, hs⟩, hfit, -, hmax, hstrict⟩ := hsome pre b post hws
    rw [List.append_nil] at hs
    subst hs
    refine ⟨by simp [hdone], hfit, ?_, hstrict⟩
    intro d hd hfd
    rw [List.append_nil] at hd
    exact hmax d hd hfd
  | cons x t ih =>
    intro done best minDiff worst maxSize pre b post hnone hsome e
    have happ : (done ++ [x]) ++ t = done ++ x :: t := by simp
    simp only [findAux] at e
    by_cases hf : fits r x
    · rw [if_pos hf] at e
      by_cases hgt : maxSize < x.size
      · rw [if_pos hgt] at e
        have hres := ih (done ++ [x]) best minDiff (some (done, x, t)) x.size
          pre b post
          (fun hc => Option.noConfusion hc)
          (by
            intro q c s hq
            obtain ⟨rfl, rfl, rfl⟩ := seg_some_inj hq
            refine ⟨⟨[], by simp, by simp⟩, hf, rfl, ?_, ?_⟩
            · intro d hd hfd
              rcases List.mem_append.mp hd with hd' | hd'
              · rcases hworst : worst with - | ⟨q0, c0, s0⟩
                · exact absurd hfd ((hnone hworst).2 d hd')
                · obtain ⟨-, -, hmax0, hmin0, -⟩ := hsome q0 c0 s0 hworst
                  have hd2 := hmin0 d hd' hfd
                  rw [hmax0] at hgt
                  omega
              · obtain rfl := List.mem_singleton.mp hd'
                exact le_rfl
            · intro d hd hfd
              rcases hworst : worst with - | ⟨q0, c0, s0⟩
              · exact absurd hfd ((hnone hworst).2 d hd)
              · obtain ⟨-, -, hmax0, hmin0, -⟩ := hsome q0 c0 s0 hworst
                have hd2 := hmin0 d hd hfd
                rw [hmax0] at hgt
                omega)
          e
        rwa [happ] at hres
      · rw [if_neg hgt] at e
        rcases hworst : worst with - | ⟨q0, c0, s0⟩
        · exfalso
          obtain ⟨hmax, -⟩ := hnone hworst
          rw [hmax] at hgt
          have h2 := hf.2
          omega
        · rw [hworst] at e
          obtain ⟨⟨u, hdone, hs⟩, hfit0, hmax0, hmin0, hstrict0⟩ :=
            hsome q0 c0 s0 hworst
          have hres := ih (done ++ [x]) best minDiff (some (q0, c0, s0)) maxSize
            pre b post
            (fun hc => Option.noConfusion hc)
            (by
              intro q c s hq
              obtain ⟨rfl, rfl, rfl⟩ := seg_some_inj hq
              refine ⟨⟨u ++ [x], by rw [hdone]; simp, by rw [hs]; simp⟩,
                hfit0, hmax0, ?_, hstrict0⟩
              intro d hd hfd
              rcases List.mem_append.mp hd with hd' | hd'
              · exact hmin0 d hd' hfd
              · obtain rfl := List.mem_singleton.mp hd'
                rw [hmax0] at hgt
                omega)
            e
          rwa [happ] at hres
    · rw [if_neg hf] at e
      have hres := ih (done ++ [x]) best minDiff worst maxSize pre b post
        (fun hw0 => ⟨(hnone hw0).1, by
          intro d hd
          rcases List.mem_append.mp hd with hd' | hd'
          · exact (hnone hw0).2 d hd'
          · obtain rfl := List.mem_singleton.mp hd'
            exact hf⟩)
        (by
          intro q c s hq
          obtain ⟨⟨u, hdone, hs⟩, h2, h3, h4, h5⟩ := hsome q c s hq
          refine ⟨⟨u ++ [x], by rw [hdone]; simp, by rw [hs]; simp⟩, h2, h3, ?_, h5⟩
          intro d hd hfd
          rcases List.mem_append.mp hd with hd' | hd'
          · exact h4 d hd' hfd
          · obtain rfl := List.mem_singleton.mp hd'
            exact absurd hfd hf)
        e
      rwa [happ] at hres

/-- C3: `find_free_block` implements the three placement policies: under
FIRST_FIT it returns the first reachable free block with `size ≥
requested_size` (everything before the result does not fit); under
BEST_FIT a free fitting block minimising `size - requested_size`, earliest
in list order on ties (the perfect-fit short-circuit returns the first
block with surplus 0, which is exactly the earliest minimiser); under
WORST_FIT a free fitting block of maximum size, earliest in list order on
ties; and under every policy it returns null exactly when no free block of
sufficient size exists.  `requested_size` is positive (it is the aligned
image of a nonzero request) and sizes are `size_t` values. -/
theorem find_free_block_policy_spec (h : Heap) (r : Nat) (hr : 0 < r)
    (hsz : ∀ b ∈ h, b.size < SIZE_T_MOD) :
    (∀ pol, find_free_block pol h r = none ↔ ∀ b ∈ h, ¬ fits r b) ∧
    (∀ pre b post, find_free_block .FIRST_FIT h r = some (pre, b, post) →
      h = pre ++ b :: post ∧ fits r b ∧ ∀ c ∈ pre, ¬ fits r c) ∧
    (∀ pre b post, find_free_block .BEST_FIT h r = some (pre, b, post) →
      h = pre ++ b :: post ∧ fits r b ∧
      (∀ c ∈ h, fits r c → b.size - r ≤ c.size - r) ∧
      (∀ c ∈ pre, fits r c → b.size - r < c.size - r)) ∧
    (∀ pre b post, find_free_block .WORST_FIT h r = some (pre, b, post) →
      h = pre ++ b :: post ∧ fits r b ∧
      (∀ c ∈ h, fits r c → c.size ≤ b.size) ∧
      (∀ c ∈ pre, fits r c → c.size < b.size)) := by
  refine ⟨?_, ?_, ?_, ?_⟩
  · intro pol
    cases pol with
    | FIRST_FIT => exact findAux_first_none_iff r h [] none (SIZE_T_MOD - 1) none 0
    | BEST_FIT =>
      have := findAux_best_none_iff r hr h [] none (SIZE_T_MOD - 1) none 0 hsz
        (fun _ => rfl)
      simpa using this
    | WORST_FIT =>
      have := findAux_worst_none_iff r hr h [] none (SIZE_T_MOD - 1) none 0
        (fun _ => rfl)
      simpa using this
  · intro pre b post e
    obtain ⟨⟨u, hpre, hrest, hnofit⟩, hfit⟩ :=
      findAux_first_char r h [] none (SIZE_T_MOD - 1) none 0 pre b post e
    rw [List.nil_append] at hpre
    subst hpre
    exact ⟨hrest, hfit, hnofit⟩
  · intro pre b post e
    have := findAux_best_char r hr h [] none (SIZE_T_MOD - 1) none 0 pre b post hsz
      (fun _ => ⟨rfl, by simp⟩)
      (fun q c s hq => Option.noConfusion hq)
      (by simp)
      e
    simpa using this
  · intro pre b post e
    have := findAux_worst_char r hr h [] none (SIZE_T_MOD - 1) none 0 pre b post
      (fun _ => ⟨rfl, by simp⟩)
      (fun q c s hq => Option.noConfusion hq)
      e
    simpa using this

/-- Witness for `find_free_block_policy_spec` on the spec's own example:
free blocks of sizes 16, 64, 32 in list order with request 16. -/
theorem find_free_block_policy_spec_witness :
    (∀ pol, find_free_block pol
        [⟨0, 16, true⟩, ⟨4096, 64, true⟩, ⟨8192, 32, true⟩] 16 = none ↔
      ∀ b ∈ [(⟨0, 16, true⟩ : Block), ⟨4096, 64, true⟩, ⟨8192, 32, true⟩],
        ¬ fits 16 b) ∧
    (∀ pre b post, find_free_block .FIRST_FIT
        [⟨0, 16, true⟩, ⟨4096, 64, true⟩, ⟨8192, 32, true⟩] 16 =
          some (pre, b, post) →
      [(⟨0, 16, true⟩ : Block), ⟨4096, 64, true⟩, ⟨8192, 32, true⟩] =
          pre ++ b :: post ∧ fits 16 b ∧ ∀ c ∈ pre, ¬ fits 16 c) ∧
    (∀ pre b post, find_free_block .BEST_FIT
        [⟨0, 16, true⟩, ⟨4096, 64, true⟩, ⟨8192, 32, true⟩] 16 =
          some (pre, b, post) →
      [(⟨0, 16, true⟩ : Block), ⟨4096, 64, true⟩, ⟨8192, 32, true⟩] =
          pre ++ b :: post ∧ fits 16 b ∧
      (∀ c ∈ [(⟨0, 16, true⟩ : Block), ⟨4096, 64, true⟩, ⟨8192, 32, true⟩],
        fits 16 c → b.size - 16 ≤ c.size - 16) ∧
      (∀ c ∈ pre, fits 16 c → b.size - 16 < c.size - 16)) ∧
    (∀ pre b post, find_free_block .WORST_FIT
        [⟨0, 16, true⟩, ⟨4096, 64, true⟩, ⟨8192, 32, true⟩] 16 =
          some (pre, b, post) →
      [(⟨0, 16, true⟩ : Block), ⟨4096, 64, true⟩, ⟨8192, 32, true⟩] =
          pre ++ b :: post ∧ fits 16 b ∧
      (∀ c ∈ [(⟨0, 16, true⟩ : Block), ⟨4096, 64, true⟩, ⟨8192, 32, true⟩],
        fits 16 c → c.size ≤ b.size) ∧
      (∀ c ∈ pre, fits 16 c → c.size < b.size)) :=
  find_free_block_policy_spec
    [⟨0, 16, true⟩, ⟨4096, 64, true⟩, ⟨8192, 32, true⟩] 16
    (by decide) (by decide)
